import Mathlib

/-!
Verification of the chessboard-detection core of `tensorflow_chessbot`
(`tensorflow_compvision.py`, `tensorflow_generate_training_data.py`).

The Python functions are shallowly embedded as executable Lean functions:
floating-point intensities become exact rationals, numpy integer arrays
become lists of integers, and fallible numpy operations (padding an empty
axis, assigning a slice whose shape cannot broadcast) become `Option`.
-/

namespace ChessCV

/-- `np.diff` on an integer array: consecutive differences, length one less
than the input. -/
def diffsZ (ls : List ℤ) : List ℤ := List.zipWith (· - ·) (ls.drop 1) ls

/-- Loop body state of `checkMatch` (`tensorflow_compvision.py` lines 279-291):
`x` is the current reference gap, `cnt` the run counter; a gap within 5 px of
`x` increments `cnt`, otherwise `cnt` resets to 0 and `x` becomes that gap.
Returns the final value of `cnt`. -/
def cmGo (x : ℤ) (cnt : ℕ) : List ℤ → ℕ
  | [] => cnt
  | a :: rest => if |a - x| < 5 then cmGo x (cnt + 1) rest else cmGo a 0 rest

/-- `checkMatch(lineset)` from `tensorflow_compvision.py` lines 279-291:
runs the gap scan over `np.diff(lineset)` starting from reference gap 0 and
returns whether the final run counter equals exactly 5. -/
def checkMatch (ls : List ℤ) : Bool := cmGo 0 0 (diffsZ ls) == 5

/-- The reference gap held by the `checkMatch`/`pruneLines` scan after
processing a list of gaps, starting from reference `x`. -/
def refGo (x : ℤ) : List ℤ → ℤ
  | [] => x
  | a :: rest => if |a - x| < 5 then refGo x rest else refGo a rest

/-- Declarative description of when the `checkMatch` scan ends with run
counter exactly 5: either the whole gap list consists of exactly 5 gaps all
within 5 px of the initial reference 0, or the list ends with 5 gaps that all
match (within 5 px) the reference gap installed by the gap right before them,
that gap itself having been a mismatch (a reset). -/
def CMSpec (d : List ℤ) : Prop :=
  (d.length = 5 ∧ ∀ a ∈ d, |a - 0| < 5) ∨
    (∃ p q, d = p ++ q ∧ q.length = 5 ∧ (∀ a ∈ q, |a - refGo 0 p| < 5) ∧
      p ≠ [] ∧ ¬ |p.getLastD 0 - refGo 0 (p.dropLast)| < 5)

/-- Loop of `pruneLines` (`tensorflow_compvision.py` lines 294-312).
State: reference gap `x`, run counter `cnt`, slice start `start`, index `i`
of the next gap to process; the remaining gaps are the last argument.  When
the incremented counter reaches 5 the slice `lineset[start : i + 2]` is
returned, otherwise the original `ls` is returned after the scan. -/
def pruneGo (ls : List ℤ) (x : ℤ) (cnt start i : ℕ) : List ℤ → List ℤ
  | [] => ls
  | a :: rest =>
    if |a - x| < 5 then
      if cnt + 1 = 5 then (ls.drop start).take (i + 2 - start)
      else pruneGo ls x (cnt + 1) start (i + 1) rest
    else pruneGo ls a 0 i (i + 1) rest

/-- `pruneLines(lineset)` from `tensorflow_compvision.py` lines 294-312. -/
def pruneLines (ls : List ℤ) : List ℤ := pruneGo ls 0 0 0 0 (diffsZ ls)

/-- The possible outcomes of `pruneLines` on `ls`: the original list
unchanged; a contiguous 7-element slice starting at position `j` whose first
gap is the run's reference gap and whose remaining five gaps each lie within
5 px of it; or — when the first five gaps all lie within 5 px of the initial
reference 0 — the 6-element prefix of `ls`. -/
def PruneOut (ls out : List ℤ) : Prop :=
  out = ls ∨
    (∃ j, out = (ls.drop j).take 7 ∧ out.length = 7 ∧ j + 7 ≤ ls.length ∧
      ∀ k, j < k → k ≤ j + 5 →
        |(diffsZ ls).getD k 0 - (diffsZ ls).getD j 0| < 5) ∨
    (out = ls.take 6 ∧ out.length = 6 ∧ 6 ≤ ls.length ∧
      ∀ k < 5, |(diffsZ ls).getD k 0| < 5)

/-- Binarization `hdx > hdx_thresh` from `getChessLines`
(`tensorflow_compvision.py` line 338): 1 where the response exceeds the
threshold, else 0 (numpy converts the boolean array to floats inside
`np.convolve`). -/
def binarize (v : List ℚ) (t : ℚ) : List ℚ := v.map (fun q => if t < q then 1 else 0)

/-- Full discrete convolution `np.convolve(a, w)`, length `M + N - 1`. -/
def convolveFull (a w : List ℚ) : List ℚ :=
  (List.range (a.length + w.length - 1)).map (fun k =>
    ((List.range a.length).map (fun j =>
      a.getD j 0 * (if j ≤ k then w.getD (k - j) 0 else 0))).sum)

/-- `np.convolve(a, w, mode='same')` for `a` at least as long as `w` (the
case exercised by `getChessLines`, where `a` is a whole-image response
curve and `w` a width-21 window): the centred `a.length` entries of the full
convolution. -/
def convolveSame (a w : List ℚ) : List ℚ :=
  ((convolveFull a w).drop ((w.length - 1) / 2)).take a.length

/-- Forward pass of `skeletonize_1d` (`tensorflow_compvision.py` lines
315-322): entry `i` is zeroed when `arr[i] <= arr[i+1]`.  The Python loop
writes into the copy `_arr` at index `i` while reading `arr[i]` and
`_arr[i+1]`; index `i+1` has not been written yet, so both reads see the
original array. -/
def skelForward (v : List ℚ) : List ℚ :=
  (List.range v.length).map (fun i =>
    if i + 1 < v.length ∧ v.getD i 0 ≤ v.getD (i + 1) 0 then 0 else v.getD i 0)

/-- Reverse pass of `skeletonize_1d` (`tensorflow_compvision.py` lines
324-327): entry `i` (for `i ≥ 1`) is zeroed when the forward-pass value at
`i-1` is greater.  The loop runs `i = n-1, ..., 1` writing index `i`, so the
read of index `i-1` always sees the forward-pass value. -/
def skelReverse (f : List ℚ) : List ℚ :=
  (List.range f.length).map (fun i =>
    if 1 ≤ i ∧ f.getD i 0 < f.getD (i - 1) 0 then 0 else f.getD i 0)

/-- `skeletonize_1d` from `tensorflow_compvision.py` lines 315-328. -/
def skeletonize1d (v : List ℚ) : List ℚ := skelReverse (skelForward v)

/-- `np.where(skel)[0]`: indices of nonzero entries, in ascending order,
as integers (`tensorflow_compvision.py` lines 345-346). -/
def nonzeroIdx (v : List ℚ) : List ℤ :=
  ((List.range v.length).filter (fun i => decide (v.getD i 0 ≠ 0))).map Int.ofNat

/-- One axis of `getChessLines` before pruning
(`tensorflow_compvision.py` lines 334-346): binarize the response curve at
the threshold, convolve with the blur window `w`, skeletonize, and take the
nonzero indices.  The Gaussian window `scipy.signal.gaussian(21, 4)`
(normalized) has irrational entries, so the window is a parameter here; every
theorem about this function holds for the source's window in particular. -/
def rawLines (w v : List ℚ) (t : ℚ) : List ℤ :=
  nonzeroIdx (skeletonize1d (convolveSame (binarize v t) w))

/-- `getChessLines(hdx, hdy, hdx_thresh, hdy_thresh)` from
`tensorflow_compvision.py` lines 331-354: per-axis candidate extraction,
pruning, and the match flag
`len(lines_x) == 7 and len(lines_y) == 7 and checkMatch(lines_x) and checkMatch(lines_y)`. -/
def getChessLines (w hdx hdy : List ℚ) (tx ty : ℚ) : List ℤ × List ℤ × Bool :=
  let lines_x := pruneLines (rawLines w hdx tx)
  let lines_y := pruneLines (rawLines w hdy ty)
  (lines_x, lines_y,
    (lines_x.length == 7) && (lines_y.length == 7) &&
      checkMatch lines_x && checkMatch lines_y)

/-- The detection driver of `tensorflow_compvision.py` lines 357-366: the
script calls `getChessLines` once with the given thresholds and then calls it
again, unconditionally, with the thresholds scaled by 0.9, rebinding
`lines_x`, `lines_y`, `is_match` both times; the first call's results are
discarded.  The float literal `.9` is modelled as the exact rational 9/10;
at the concrete thresholds used below (10 and 9) the float64 product and the
rational product agree exactly. -/
def detectTwice (w hdx hdy : List ℚ) (tx ty : ℚ) : List ℤ × List ℤ × Bool :=
  let _first := getChessLines w hdx hdy tx ty
  getChessLines w hdx hdy (tx * (9 / 10)) (ty * (9 / 10))

/-- Concrete Hough-response curve used to exercise the retry driver: seven
super-threshold plateaus (value 11) of width 3 spaced 5 apart, separated by
value-10 samples, then a zero sample. -/
def hdxC : List ℚ :=
  [11, 11, 11, 10, 10, 11, 11, 11, 10, 10, 11, 11, 11, 10, 10,
   11, 11, 11, 10, 10, 11, 11, 11, 10, 10, 11, 11, 11, 10, 10, 11, 11, 11, 0]

/-- A grayscale image: a list of rows of exact rational intensities
(standing for the float32 array `a`). -/
abbrev MatQ : Type := List (List ℚ)

/-- A stored tile: a list of rows of `uint8` pixel values. -/
abbrev TileN : Type := List (List ℕ)

/-- Number of rows of an image. -/
def nrows (m : MatQ) : ℕ := m.length

/-- Number of columns of an image (length of its first row). -/
def ncols (m : MatQ) : ℕ := (m.headD []).length

/-- Resolve a Python slice endpoint against a sequence of length `n`:
negative indices count from the end, and endpoints clamp to `[0, n]`. -/
def pyIx (n : ℕ) (i : ℤ) : ℕ := if i < 0 then ((n : ℤ) + i).toNat else min i.toNat n

/-- Python/numpy basic slice `l[i:j]`. -/
def pySlice {α : Type} (l : List α) (i j : ℤ) : List α :=
  (l.take (pyIx l.length j)).drop (pyIx l.length i)

/-- Two-dimensional slice `m[r1:r2, c1:c2]`. -/
def sliceM (m : MatQ) (r1 r2 c1 c2 : ℤ) : MatQ :=
  (pySlice m r1 r2).map (fun row => pySlice row c1 c2)

/-- `np.round` on a rational: round half to even (numpy banker's rounding).
The float means arising in `getChessTiles` are means of at most 6 integer
gaps, whose exact values are `k/6`; the only ties are dyadic and hence exact
in float64, so the rational model agrees with numpy here. -/
def roundHalfEven (q : ℚ) : ℤ :=
  if q - ⌊q⌋ < 1 / 2 then ⌊q⌋
  else if (1 : ℚ) / 2 < q - ⌊q⌋ then ⌊q⌋ + 1
  else if ⌊q⌋ % 2 = 0 then ⌊q⌋ else ⌊q⌋ + 1

/-- `np.int32(np.round(np.mean(np.diff(lines))))` from
`tensorflow_compvision.py` lines 423-424 (`np.mean` of an empty list is
modelled as 0; every caller passes 7 lines, giving 6 gaps). -/
def stepOf (ls : List ℤ) : ℤ :=
  roundHalfEven (((diffsZ ls).sum : ℚ) / ((diffsZ ls).length : ℚ))

/-- The four edge-padding amounts of `getChessTiles`
(`tensorflow_compvision.py` lines 430-442) for an `hh × ww` image.  The
upper-bound test for the y axis compares `lines_y[-1] + stepx` (not `stepy`)
against `hh - 1`, exactly as line 441 of the source does, while the pad
amount on that side is computed from `stepy`. -/
structure Pads where
  plx : ℤ
  prx : ℤ
  ply : ℤ
  pry : ℤ

/-- Compute the `Pads` of `getChessTiles` for an `hh × ww` image. -/
def padsOf (hh ww : ℤ) (lx ly : List ℤ) : Pads :=
  let stepx := stepOf lx
  let stepy := stepOf ly
  { plx := if lx.headD 0 - stepx < 0 then |lx.headD 0 - stepx| else 0
    prx := if ww - 1 < lx.getLastD 0 + stepx then |lx.getLastD 0 + stepx - ww| else 0
    ply := if ly.headD 0 - stepy < 0 then |ly.headD 0 - stepy| else 0
    pry := if hh - 1 < ly.getLastD 0 + stepx then |ly.getLastD 0 + stepy - hh| else 0 }

/-- `np.pad(m, ((pt, pb), (pl, pr)), mode='edge')`: replicate border rows and
columns.  numpy raises when asked to extend an empty axis, which is modelled
as `none`. -/
def padEdgeO (pt pb pl pr : ℕ) (m : MatQ) : Option MatQ :=
  if m.isEmpty && decide (0 < pt + pb) then none
  else if (m.any fun r => r.isEmpty) && decide (0 < pl + pr) then none
  else
    let rows := m.map fun r =>
      List.replicate pl (r.headD 0) ++ r ++ List.replicate pr (r.getLastD 0)
    some (List.replicate pt (rows.headD []) ++ rows ++ List.replicate pb (rows.getLastD []))

/-- Truncation of a rational toward zero, as C/numpy float-to-integer
conversion does (`Int.tdiv` is T-division). -/
def ratTrunc (q : ℚ) : ℤ := Int.tdiv q.num (q.den : ℤ)

/-- Conversion of a float intensity to `uint8` on assignment into the
`np.zeros(..., dtype=np.uint8)` stack: truncate toward zero, then reduce
modulo 2^8. -/
def u8cast (q : ℚ) : ℕ := ((ratTrunc q) % 256).toNat

/-- Elementwise `uint8` conversion of a tile. -/
def castTile (m : MatQ) : TileN := m.map fun r => r.map u8cast

/-- Broadcast a row to `c` columns, as numpy assignment does: a row already
of width `c` is kept, a width-1 row is replicated, anything else fails. -/
def broadcastRow (c : ℕ) (r : List ℚ) : Option (List ℚ) :=
  if r.length = c then some r
  else if r.length = 1 then some (List.replicate c (r.headD 0))
  else none

/-- Broadcast every row of an array to `c` columns; any unbroadcastable row
fails the whole assignment. -/
def broadcastRows (c : ℕ) : List (List ℚ) → Option (List (List ℚ))
  | [] => some []
  | r :: rest => (broadcastRow c r).bind fun r2 => (broadcastRows c rest).map (r2 :: ·)

/-- Broadcast a 2-D array to shape `rr × cc` for numpy slice assignment:
each axis must already match or have extent 1. -/
def broadcastTo (rr cc : ℕ) (m : MatQ) : Option MatQ :=
  (if m.length = rr then some m
   else if m.length = 1 then some (List.replicate rr (m.headD []))
   else none).bind fun m2 => broadcastRows cc m2

/-- `np.hstack([lines[0] - step, lines, lines[-1] + step]) + padl` from
`tensorflow_compvision.py` lines 448-449. -/
def setsX (ls : List ℤ) (step padl : ℤ) : List ℤ :=
  ((ls.headD 0 - step) :: (ls ++ [ls.getLastD 0 + step])).map (· + padl)

/-- The padded image `a2` of `getChessTiles` (line 446). -/
def a2Of (a : MatQ) (lx ly : List ℤ) : Option MatQ :=
  let p := padsOf (nrows a) (ncols a) lx ly
  padEdgeO p.ply.toNat p.pry.toNat p.plx.toNat p.prx.toNat a

/-- The extended x-axis line set `setsx` of `getChessTiles` (line 448). -/
def setsXOf (a : MatQ) (lx ly : List ℤ) : List ℤ :=
  setsX lx (stepOf lx) (padsOf (nrows a) (ncols a) lx ly).plx

/-- The extended y-axis line set `setsy` of `getChessTiles` (line 449). -/
def setsYOf (a : MatQ) (lx ly : List ℤ) : List ℤ :=
  setsX ly (stepOf ly) (padsOf (nrows a) (ncols a) lx ly).ply

/-- The cropped padded image `a2[setsy[0]:setsy[-1], setsx[0]:setsx[-1]]`
(line 451). -/
def a2cOf (a : MatQ) (lx ly : List ℤ) : Option MatQ :=
  (a2Of a lx ly).map fun a2 =>
    sliceM a2 ((setsYOf a lx ly).headD 0) ((setsYOf a lx ly).getLastD 0)
      ((setsXOf a lx ly).headD 0) ((setsXOf a lx ly).getLastD 0)

/-- `setsx -= setsx[0]` (line 452). -/
def sxlOf (a : MatQ) (lx ly : List ℤ) : List ℤ :=
  (setsXOf a lx ly).map (· - (setsXOf a lx ly).headD 0)

/-- `setsy -= setsy[0]` (line 453). -/
def sylOf (a : MatQ) (lx ly : List ℤ) : List ℤ :=
  (setsYOf a lx ly).map (· - (setsYOf a lx ly).headD 0)

/-- One axis of a cell: its slice bounds and edge-padding amounts. -/
structure CellSpan where
  lo : ℤ
  hi : ℤ
  padLo : ℕ
  padHi : ℕ

/-- The per-cell boundary adjustment of `getChessTiles` (lines 474-501): a
cell wider than the step is clamped (shifting the outer edge for the last
cell, the inner edge otherwise); a narrower cell records edge padding (on the
far side for the last cell, the near side otherwise). -/
def adjustCell (lo hi step : ℤ) (isLast : Bool) : CellSpan :=
  if step < hi - lo then
    if isLast then ⟨hi - step, hi, 0, 0⟩ else ⟨lo, lo + step, 0, 0⟩
  else if hi - lo < step then
    if isLast then ⟨lo, hi, 0, (step - (hi - lo)).toNat⟩
    else ⟨lo, hi, (step - (hi - lo)).toNat, 0⟩
  else ⟨lo, hi, 0, 0⟩

/-- The tile written for grid cell `(i, j)` (column `i`, row `j`, both
0-based from the top left): slice the cropped image between the adjusted
lines, edge-pad to the canonical step size, broadcast into the
`(stepy, stepx)` slot shape, and convert to `uint8`
(`tensorflow_compvision.py` lines 463-505). -/
def cellAssigned (a : MatQ) (lx ly : List ℤ) (i j : ℕ) : Option TileN :=
  (a2cOf a lx ly).bind fun a2c =>
    let cx := adjustCell ((sxlOf a lx ly).getD i 0) ((sxlOf a lx ly).getD (i + 1) 0)
      (stepOf lx) (i == 7)
    let cy := adjustCell ((sylOf a lx ly).getD j 0) ((sylOf a lx ly).getD (j + 1) 0)
      (stepOf ly) (j == 7)
    (padEdgeO cy.padLo cy.padHi cx.padLo cx.padHi
        (sliceM a2c cy.lo cy.hi cx.lo cx.hi)).bind fun padded =>
      (broadcastTo (stepOf ly).toNat (stepOf lx).toNat padded).map castTile

/-- The stack slot `(7 - j) * 8 + i` of cell `(i, j)` (line 505). -/
def slotOf (i j : ℕ) : ℕ := (7 - j) * 8 + i

/-- Write the tiles of the listed cells into their slots, in order; any
failing cell assignment aborts the whole computation (numpy raises). -/
def setCells (f : ℕ → ℕ → Option TileN) : List (ℕ × ℕ) → List TileN → Option (List TileN)
  | [], s => some s
  | p :: rest, s => (f p.1 p.2).bind fun t => setCells f rest (s.set (slotOf p.1 p.2) t)

/-- The iteration order of the double loop of lines 463-465: columns `i`
outer, rows `j` inner. -/
def cellOrder : List (ℕ × ℕ) :=
  (List.range 8).flatMap fun i => (List.range 8).map fun j => (i, j)

/-- An all-zero `uint8` tile, as `np.zeros` produces. -/
def zeroTile (r c : ℕ) : TileN := List.replicate r (List.replicate c 0)

/-- `getChessTiles(a, lines_x, lines_y)` from `tensorflow_compvision.py`
lines 420-506: preallocate 64 zero tiles of shape
`(round(stepy), round(stepx))` and fill each grid cell's slot.  `np.zeros`
with a negative extent raises, modelled as `none`. -/
def getChessTiles (a : MatQ) (lx ly : List ℤ) : Option (List TileN) :=
  if stepOf lx < 0 ∨ stepOf ly < 0 then none
  else
    setCells (cellAssigned a lx ly) cellOrder
      (List.replicate 64 (zeroTile (stepOf ly).toNat (stepOf lx).toNat))

/-- All pixel values stored in a (possibly failed) tile stack. -/
def storedEntries (o : Option (List TileN)) : List ℕ :=
  (o.getD []).foldr (fun t acc => t.foldr (· ++ ·) [] ++ acc) []

/-- Membership of an intensity in an image. -/
def inMat (q : ℚ) (m : MatQ) : Prop := ∃ r ∈ m, q ∈ r

/-- Concrete 9-by-9 test image with pairwise distinct cells: pixel
`(r, c)` holds intensity `9 r + c`. -/
def a9 : MatQ := (List.range 9).map fun r => (List.range 9).map fun c => ((9 * r + c : ℕ) : ℚ)

/-- Interior grid lines of `a9`: unit spacing. -/
def L9 : List ℤ := [1, 2, 3, 4, 5, 6, 7]

/-- 23-by-10 all-zero image for the y-overhang defect: with
`lines_y = [3, 6, ..., 21]` (`stepy = 3`) and `lines_x = [1, ..., 7]`
(`stepx = 1`), the bottom boundary line `21 + 3 = 24` overflows the image
(`24 > 23`), but the test `lines_y[-1] + stepx > 22` is false, so no bottom
padding happens and the last-row tile slices come up short. -/
def aBug : MatQ := List.replicate 23 (List.replicate 10 0)

/-- x lines of the overhang example. -/
def lxBug : List ℤ := [1, 2, 3, 4, 5, 6, 7]

/-- y lines of the overhang example. -/
def lyBug : List ℤ := [3, 6, 9, 12, 15, 18, 21]

/-- The FEN character set `'1KQRBNPkqrbnp'` of
`tensorflow_generate_training_data.py` line 49. -/
def fenChars : List Char :=
  ['1', 'K', 'Q', 'R', 'B', 'N', 'P', 'k', 'q', 'r', 'b', 'n', 'p']

/-- The eight 8-character slices `pieces[i*8:(i+1)*8]` of
`tensorflow_generate_training_data.py` line 51. -/
def fenGroups (pieces : List Char) : List (List Char) :=
  (List.range 8).map fun i => (pieces.drop (8 * i)).take 8

/-- Python `'/'.join`. -/
def slashJoin : List (List Char) → List Char
  | [] => []
  | [g] => g
  | g :: rest => g ++ '/' :: slashJoin rest

/-- `getRandomFEN()` from `tensorflow_generate_training_data.py` lines 48-53,
as a function of the 64 characters drawn by `np.random.choice(fen_chars, 64)`. -/
def getRandomFEN (pieces : List Char) : List Char := slashJoin (fenGroups pieces)


/-! ### Helper lemmas about the gap scan -/

theorem refGo_cons_match {x a : ℤ} (p : List ℤ) (h : |a - x| < 5) :
    refGo x (a :: p) = refGo x p := by
  simp [refGo, h]

theorem refGo_cons_mismatch {x a : ℤ} (p : List ℤ) (h : ¬ |a - x| < 5) :
    refGo x (a :: p) = refGo a p := by
  simp [refGo, h]

theorem getLastD_irrel {α : Type _} : ∀ {p : List α}, p ≠ [] → ∀ d d', p.getLastD d = p.getLastD d'
  | [], h, _, _ => absurd rfl h
  | _ :: p', _, _, _ => by rw [List.getLastD_cons, List.getLastD_cons]

/-- The `checkMatch` scan ends with counter exactly 5 iff either everything
matched the running reference and the count works out, or the gap list ends
in a fresh, complete, exactly-5 run. -/
theorem cmGo_eq_five_iff (x : ℤ) (cnt : ℕ) (d : List ℤ) :
    cmGo x cnt d = 5 ↔
      ((∀ b ∈ d, |b - x| < 5) ∧ cnt + d.length = 5) ∨
        (∃ p q, d = p ++ q ∧ q.length = 5 ∧ (∀ b ∈ q, |b - refGo x p| < 5) ∧
          p ≠ [] ∧ ¬ |p.getLastD 0 - refGo x p.dropLast| < 5) := by
  induction d generalizing x cnt with
  | nil =>
    constructor
    · intro hcnt
      exact Or.inl ⟨by simp, by simpa [cmGo] using hcnt⟩
    · rintro (⟨_, hlen⟩ | ⟨p, q, hpq, hq5, -⟩)
      · simpa [cmGo] using hlen
      · have hl := congrArg List.length hpq
        simp only [List.length_nil, List.length_append, hq5] at hl
        exact absurd hl (by omega)
  | cons a rest ih =>
    by_cases h : |a - x| < 5
    · simp only [cmGo, if_pos h]
      rw [ih x (cnt + 1)]
      constructor
      · rintro (⟨hall, hlen⟩ | ⟨p, q, hpq, hq5, hmatch, hpne, hlast⟩)
        · refine Or.inl ⟨?_, by simp only [List.length_cons]; omega⟩
          rintro b hb
          rcases List.mem_cons.mp hb with rfl | hb
          · exact h
          · exact hall b hb
        · refine Or.inr ⟨a :: p, q, by rw [hpq, List.cons_append], hq5, ?_, by simp, ?_⟩
          · rw [refGo_cons_match p h]
            exact hmatch
          · rw [List.dropLast_cons_of_ne_nil hpne, refGo_cons_match _ h,
              List.getLastD_cons, getLastD_irrel hpne a 0]
            exact hlast
      · rintro (⟨hall, hlen⟩ | ⟨p', q, hpq, hq5, hmatch, hpne, hlast⟩)
        · refine Or.inl ⟨fun b hb => hall b (List.mem_cons_of_mem a hb), ?_⟩
          simp at hlen
          omega
        · match p', hpne with
          | b :: p, _ =>
            rw [List.cons_append, List.cons.injEq] at hpq
            obtain ⟨rfl, hrest⟩ := hpq
            rcases eq_or_ne p [] with rfl | hpne2
            · exfalso
              simp [refGo] at hlast
              exact absurd h (not_lt.mpr hlast)
            · refine Or.inr ⟨p, q, hrest, hq5, ?_, hpne2, ?_⟩
              · rw [refGo_cons_match p h] at hmatch
                exact hmatch
              · rw [List.dropLast_cons_of_ne_nil hpne2, refGo_cons_match _ h,
                  List.getLastD_cons, getLastD_irrel hpne2 a 0] at hlast
                exact hlast
    · simp only [cmGo, if_neg h]
      rw [ih a 0]
      constructor
      · rintro (⟨hall, hlen⟩ | ⟨p, q, hpq, hq5, hmatch, hpne, hlast⟩)
        · refine Or.inr ⟨[a], rest, rfl, by simpa using hlen, ?_, by simp, ?_⟩
          · intro b hb
            rw [refGo_cons_mismatch [] h]
            simpa [refGo] using hall b hb
          · simpa [refGo] using h
        · refine Or.inr ⟨a :: p, q, by rw [hpq, List.cons_append], hq5, ?_, by simp, ?_⟩
          · rw [refGo_cons_mismatch p h]
            exact hmatch
          · rw [List.dropLast_cons_of_ne_nil hpne, refGo_cons_mismatch _ h,
              List.getLastD_cons, getLastD_irrel hpne a 0]
            exact hlast
      · rintro (⟨hall, -⟩ | ⟨p', q, hpq, hq5, hmatch, hpne, hlast⟩)
        · exact absurd (hall a (by simp)) h
        · match p', hpne with
          | b :: p, _ =>
            rw [List.cons_append, List.cons.injEq] at hpq
            obtain ⟨rfl, hrest⟩ := hpq
            rcases eq_or_ne p [] with rfl | hpne2
            · obtain rfl : rest = q := by simpa using hrest
              refine Or.inl ⟨?_, by simpa using hq5⟩
              intro c hc
              have := hmatch c hc
              rwa [refGo_cons_mismatch [] h, refGo] at this
            · refine Or.inr ⟨p, q, hrest, hq5, ?_, hpne2, ?_⟩
              · rw [refGo_cons_mismatch p h] at hmatch
                exact hmatch
              · rw [List.dropLast_cons_of_ne_nil hpne2, refGo_cons_mismatch _ h,
                  List.getLastD_cons, getLastD_irrel hpne2 a 0] at hlast
                exact hlast

/-! ### Claim theorems: checkMatch, match flag, retry driver -/

/-- Claim C3, counterexample: eight evenly spaced lines have seven equal
gaps of 50; after the initial reset the reference gap is 50 and the next
five gaps form a run of 5 consecutive gaps each matching it, yet
`checkMatch` returns false, because the scan's final counter is 6, not 5. -/
theorem c3_counterexample :
    checkMatch [0, 50, 100, 150, 200, 250, 300, 350] = false ∧
      diffsZ [0, 50, 100, 150, 200, 250, 300, 350] = [50] ++ [50, 50, 50, 50, 50] ++ [50] ∧
      (∀ b ∈ [(50 : ℤ), 50, 50, 50, 50], |b - refGo 0 [50]| < 5) ∧
      cmGo 0 0 (diffsZ [0, 50, 100, 150, 200, 250, 300, 350]) = 6 := by decide

/-- Claim C3, amended: `checkMatch` returns true iff the gap scan ends with
its run counter exactly 5 — either the diff sequence consists of exactly 5
gaps all within 5 px of the initial reference 0, or it ends with exactly 5
gaps matching the reference gap installed by the reset immediately before
them.  A matching run of 5 that ends earlier, or a longer trailing run (as
with 8 evenly spaced lines), yields false. -/
theorem c3_checkMatch_iff (ls : List ℤ) : checkMatch ls = true ↔ CMSpec (diffsZ ls) := by
  rw [checkMatch, beq_iff_eq, cmGo_eq_five_iff]
  unfold CMSpec
  simp only [Nat.zero_add]
  exact or_congr and_comm Iff.rfl

/-- Claim C1 (confirmed): the match flag returned by `getChessLines` is true
iff both pruned line sets have length exactly 7 and both pass `checkMatch`.
The embedding is a total function, so the failure of detection is only ever
reported through this boolean. -/
theorem c1_match_flag_iff (w hdx hdy : List ℚ) (tx ty : ℚ) :
    (getChessLines w hdx hdy tx ty).2.2 = true ↔
      (getChessLines w hdx hdy tx ty).1.length = 7 ∧
        (getChessLines w hdx hdy tx ty).2.1.length = 7 ∧
        checkMatch (getChessLines w hdx hdy tx ty).1 = true ∧
        checkMatch (getChessLines w hdx hdy tx ty).2.1 = true := by
  simp only [getChessLines, Bool.and_eq_true, beq_iff_eq]
  exact ⟨fun h => ⟨h.1.1.1, h.1.1.2, h.1.2, h.2⟩, fun h => ⟨⟨⟨h.1, h.2.1⟩, h.2.2.1⟩, h.2.2.2⟩⟩

set_option maxRecDepth 100000 in
/-- Claim C7, counterexample: a response curve (with the width-1 identity
blur window, which the retry logic never inspects) on which the first
attempt (thresholds 10) succeeds, yet the reference driver still performs
the second, 0.9-scaled attempt (thresholds 9) and reports its failing flag;
the claim would require the final flag to be the first attempt's `true`. -/
theorem c7_counterexample :
    (getChessLines [1] hdxC hdxC 10 10).2.2 = true ∧
      (detectTwice [1] hdxC hdxC 10 10).2.2 = false :=
  ⟨by with_unfolding_all rfl, by with_unfolding_all rfl⟩

/-- Claim C7, amended: the driver performs the second, scaled-threshold
attempt unconditionally (not only after a failed first attempt), and the
final lines and match flag are exactly the second attempt's result; the
first attempt's result is discarded. -/
theorem c7_second_attempt_unconditional (w hdx hdy : List ℚ) (tx ty : ℚ) :
    detectTwice w hdx hdy tx ty =
      getChessLines w hdx hdy (tx * (9 / 10)) (ty * (9 / 10)) := rfl

/-! ### pruneLines analysis -/

theorem diffsZ_length (ls : List ℤ) : (diffsZ ls).length = ls.length - 1 := by
  rw [diffsZ, List.length_zipWith, List.length_drop]
  omega

theorem getD_of_drop_eq_cons {l : List ℤ} {i : ℕ} {a : ℤ} {rest : List ℤ}
    (h : l.drop i = a :: rest) : l.getD i 0 = a := by
  have h1 : l[i]? = some a := by
    rw [← List.head?_drop, h, List.head?_cons]
  rw [List.getD_eq_getElem?_getD, h1, Option.getD_some]

theorem lt_length_of_drop_eq_cons {l : List ℤ} {i : ℕ} {a : ℤ} {rest : List ℤ}
    (h : l.drop i = a :: rest) : i < l.length := by
  by_contra hle
  rw [List.drop_eq_nil_iff.mpr (by omega)] at h
  exact List.noConfusion h

theorem drop_succ_of_drop_eq_cons {l : List ℤ} {i : ℕ} {a : ℤ} {rest : List ℤ}
    (h : l.drop i = a :: rest) : l.drop (i + 1) = rest := by
  have h2 := List.drop_drop 1 i l
  rw [h, List.drop_one, List.tail_cons] at h2
  exact h2.symm

/-- Invariant-carrying analysis of the `pruneLines` loop: from any reachable
state (all gaps so far matched the initial reference 0, or the reference was
reset at `start` and the `cnt` gaps after it matched), the loop returns one
of the three `PruneOut` shapes. -/
theorem pruneGo_out (ls : List ℤ) (d : List ℤ) :
    ∀ (x : ℤ) (cnt start i : ℕ),
      d = (diffsZ ls).drop i →
      ((start = 0 ∧ x = 0 ∧ cnt = i ∧ cnt ≤ 4 ∧
          ∀ k < i, |(diffsZ ls).getD k 0| < 5) ∨
        (start < i ∧ x = (diffsZ ls).getD start 0 ∧ i = start + cnt + 1 ∧ cnt ≤ 4 ∧
          ∀ k, start < k → k < i →
            |(diffsZ ls).getD k 0 - (diffsZ ls).getD start 0| < 5)) →
      PruneOut ls (pruneGo ls x cnt start i d) := by
  induction d with
  | nil =>
    intro x cnt start i _ _
    exact Or.inl rfl
  | cons a rest ih =>
    intro x cnt start i hd hinv
    have hlt : i < (diffsZ ls).length := lt_length_of_drop_eq_cons hd.symm
    have ha : (diffsZ ls).getD i 0 = a := getD_of_drop_eq_cons hd.symm
    have hrest : rest = (diffsZ ls).drop (i + 1) := (drop_succ_of_drop_eq_cons hd.symm).symm
    have hlen : (diffsZ ls).length = ls.length - 1 := diffsZ_length ls
    by_cases h : |a - x| < 5
    · by_cases h5 : cnt + 1 = 5
      · simp only [pruneGo, if_pos h, if_pos h5]
        rcases hinv with ⟨hs0, hx0, hci, hc4, hall⟩ | ⟨hsi, hxs, hisc, hc4, hrun⟩
        · have hi4 : i = 4 := by omega
          subst hs0 hi4
          refine Or.inr (Or.inr ⟨by rw [List.drop_zero], ?_, by omega, ?_⟩)
          · rw [List.length_take, List.length_drop]
            omega
          · intro k hk
            rcases Nat.lt_succ_iff_lt_or_eq.mp hk with hk | rfl
            · exact hall k hk
            · rw [ha]
              rw [hx0, sub_zero] at h
              exact h
        · have h7 : i + 2 - start = 7 := by omega
          rw [h7]
          refine Or.inr (Or.inl ⟨start, rfl, ?_, by omega, ?_⟩)
          · rw [List.length_take, List.length_drop]
            omega
          · intro k hks hki
            rcases Nat.lt_or_ge k i with hk | hk
            · exact hrun k hks hk
            · have hki' : k = i := by omega
              subst hki'
              rw [ha, ← hxs]
              exact h
      · simp only [pruneGo, if_pos h, if_neg h5]
        apply ih x (cnt + 1) start (i + 1) hrest
        rcases hinv with ⟨hs0, hx0, hci, hc4, hall⟩ | ⟨hsi, hxs, hisc, hc4, hrun⟩
        · refine Or.inl ⟨hs0, hx0, by omega, by omega, ?_⟩
          intro k hk
          rcases Nat.lt_succ_iff_lt_or_eq.mp hk with hk | rfl
          · exact hall k hk
          · rw [ha]
            rw [hx0, sub_zero] at h
            exact h
        · refine Or.inr ⟨by omega, hxs, by omega, by omega, ?_⟩
          intro k hks hki
          rcases Nat.lt_succ_iff_lt_or_eq.mp hki with hki | rfl
          · exact hrun k hks hki
          · rw [ha, ← hxs]
            exact h
    · simp only [pruneGo, if_neg h]
      apply ih a 0 i (i + 1) hrest
      exact Or.inr ⟨Nat.lt_succ_self i, ha.symm, by omega, by omega,
        fun k hk1 hk2 => absurd hk1 (by omega)⟩

/-- Claim C2, counterexample: a strictly increasing line set on which
`pruneLines` returns a 6-element slice — neither the original sequence nor a
7-element run. -/
theorem c2_counterexample :
    List.Pairwise (· < ·) [(0 : ℤ), 1, 2, 3, 4, 5, 6] ∧
      pruneLines [0, 1, 2, 3, 4, 5, 6] = [0, 1, 2, 3, 4, 5] ∧
      (pruneLines [0, 1, 2, 3, 4, 5, 6]).length = 6 ∧
      pruneLines [0, 1, 2, 3, 4, 5, 6] ≠ [0, 1, 2, 3, 4, 5, 6] := by decide

/-- Claim C2, amended: for every strictly increasing integer sequence,
`pruneLines` returns the original sequence unchanged, or a contiguous
7-element slice whose six gaps consist of the run's reference gap followed
by five gaps each within 5 px of it, or — in the degenerate case where the
first five gaps all lie within 5 px of the initial reference 0 — the
6-element prefix of the sequence. -/
theorem c2_pruneLines_cases (ls : List ℤ) (_hmono : List.Pairwise (· < ·) ls) :
    PruneOut ls (pruneLines ls) :=
  pruneGo_out ls (diffsZ ls) 0 0 0 0 (List.drop_zero _).symm
    (Or.inl ⟨rfl, rfl, rfl, by omega, fun k hk => absurd hk (Nat.not_lt_zero k)⟩)

/-- Witness for C2: a strictly increasing sequence satisfying the
hypothesis, on which the amended trichotomy therefore holds. -/
theorem c2_witness :
    List.Pairwise (· < ·) [(0 : ℤ), 10, 20, 30, 40, 50, 60, 100] ∧
      PruneOut [0, 10, 20, 30, 40, 50, 60, 100]
        (pruneLines [0, 10, 20, 30, 40, 50, 60, 100]) :=
  ⟨by decide, c2_pruneLines_cases _ (by decide)⟩

/-! ### Strict monotonicity of the line sets -/

theorem pruneGo_slice (ls : List ℤ) (d : List ℤ) :
    ∀ (x : ℤ) (cnt start i : ℕ),
      pruneGo ls x cnt start i d = ls ∨
        ∃ j n, pruneGo ls x cnt start i d = (ls.drop j).take n := by
  induction d with
  | nil =>
    intro x cnt start i
    exact Or.inl rfl
  | cons a rest ih =>
    intro x cnt start i
    simp only [pruneGo]
    by_cases h : |a - x| < 5
    · rw [if_pos h]
      by_cases h5 : cnt + 1 = 5
      · rw [if_pos h5]
        exact Or.inr ⟨start, i + 2 - start, rfl⟩
      · rw [if_neg h5]
        exact ih x (cnt + 1) start (i + 1)
    · rw [if_neg h]
      exact ih a 0 i (i + 1)

theorem nonzeroIdx_pairwise (v : List ℚ) : List.Pairwise (· < ·) (nonzeroIdx v) := by
  unfold nonzeroIdx
  exact List.Pairwise.map _ (fun a b hab => Int.ofNat_lt.mpr hab)
    (List.Pairwise.filter _ (List.pairwise_lt_range _))

theorem pruneLines_pairwise {ls : List ℤ} (h : List.Pairwise (· < ·) ls) :
    List.Pairwise (· < ·) (pruneLines ls) := by
  unfold pruneLines
  rcases pruneGo_slice ls (diffsZ ls) 0 0 0 0 with heq | ⟨j, n, heq⟩
  · rw [heq]
    exact h
  · rw [heq]
    exact List.Pairwise.sublist
      ((List.take_sublist _ _).trans (List.drop_sublist _ _)) h

/-- Claim C8 (confirmed): for every window, response curve and threshold,
the pre-pruning candidate array (ascending nonzero indices of the skeleton)
is strictly increasing, and both pruned line arrays returned by
`getChessLines` are strictly increasing, since `pruneLines` returns either
the original array or a contiguous slice of it. -/
theorem c8_lines_strictly_increasing (w hdx hdy : List ℚ) (tx ty : ℚ) :
    List.Pairwise (· < ·) (rawLines w hdx tx) ∧
      List.Pairwise (· < ·) (rawLines w hdy ty) ∧
      List.Pairwise (· < ·) (getChessLines w hdx hdy tx ty).1 ∧
      List.Pairwise (· < ·) (getChessLines w hdx hdy tx ty).2.1 :=
  ⟨nonzeroIdx_pairwise _, nonzeroIdx_pairwise _,
    pruneLines_pairwise (nonzeroIdx_pairwise _),
    pruneLines_pairwise (nonzeroIdx_pairwise _)⟩

/-! ### FEN generator shape -/

theorem slashJoin_length (gs : List (List Char)) :
    (slashJoin gs).length = (gs.map List.length).sum + (gs.length - 1) := by
  induction gs with
  | nil => simp [slashJoin]
  | cons g rest ih =>
    cases rest with
    | nil => simp [slashJoin]
    | cons g2 t =>
      show (g ++ '/' :: slashJoin (g2 :: t)).length = _
      rw [List.length_append, List.length_cons, ih]
      simp only [List.map_cons, List.sum_cons, List.length_cons]
      omega

theorem slashJoin_count (gs : List (List Char)) (h : ∀ g ∈ gs, '/' ∉ g) :
    (slashJoin gs).count '/' = gs.length - 1 := by
  induction gs with
  | nil => simp [slashJoin]
  | cons g rest ih =>
    cases rest with
    | nil =>
      show g.count '/' = 0
      exact List.count_eq_zero.mpr (h g (by simp))
    | cons g2 t =>
      show (g ++ '/' :: slashJoin (g2 :: t)).count '/' = _
      rw [List.count_append, List.count_cons_self,
        List.count_eq_zero.mpr (h g (by simp)),
        ih (fun g' hg' => h g' (List.mem_cons_of_mem g hg'))]
      simp only [List.length_cons]
      omega

theorem slashJoin_mem {gs : List (List Char)} {c : Char} (hc : c ∈ slashJoin gs) :
    (∃ g ∈ gs, c ∈ g) ∨ c = '/' := by
  induction gs with
  | nil => exact absurd hc (by simp [slashJoin])
  | cons g rest ih =>
    cases rest with
    | nil => exact Or.inl ⟨g, by simp, hc⟩
    | cons g2 t =>
      rcases List.mem_append.mp hc with hg | htail
      · exact Or.inl ⟨g, by simp, hg⟩
      · rcases List.mem_cons.mp htail with rfl | hj
        · exact Or.inr rfl
        · rcases ih hj with ⟨g', hg', hcg'⟩ | hslash
          · exact Or.inl ⟨g', List.mem_cons_of_mem g hg', hcg'⟩
          · exact Or.inr hslash

theorem fenGroups_length (pieces : List Char) : (fenGroups pieces).length = 8 := by
  simp [fenGroups]

theorem fenGroups_mem_length {pieces : List Char} (hlen : pieces.length = 64)
    {g : List Char} (hg : g ∈ fenGroups pieces) : g.length = 8 := by
  rcases List.mem_map.mp hg with ⟨i, hi, rfl⟩
  rw [List.mem_range] at hi
  rw [List.length_take, List.length_drop, hlen]
  omega

theorem fenGroups_mem_mem {pieces : List Char} {g : List Char}
    (hg : g ∈ fenGroups pieces) {c : Char} (hc : c ∈ g) : c ∈ pieces := by
  rcases List.mem_map.mp hg with ⟨i, _, rfl⟩
  exact ((List.take_sublist _ _).trans (List.drop_sublist _ _)).mem hc

/-- Claim C9 (confirmed): for any 64 characters drawn from the FEN charset,
the generated string consists of 8 groups of exactly 8 charset characters
joined by the delimiter, hence 64 placement characters, 7 delimiters, and
total length 71. -/
theorem c9_fen_shape (pieces : List Char) (hlen : pieces.length = 64)
    (hmem : ∀ c ∈ pieces, c ∈ fenChars) :
    (getRandomFEN pieces).length = 71 ∧
      (fenGroups pieces).length = 8 ∧
      (∀ g ∈ fenGroups pieces, g.length = 8 ∧ ∀ c ∈ g, c ∈ fenChars) ∧
      (getRandomFEN pieces).count '/' = 7 ∧
      ∀ c ∈ getRandomFEN pieces, c ∈ fenChars ∨ c = '/' := by
  have hslash : ∀ g ∈ fenGroups pieces, '/' ∉ g := by
    intro g hg hc
    have := hmem _ (fenGroups_mem_mem hg hc)
    simp [fenChars] at this
  have hmap : (fenGroups pieces).map List.length =
      List.replicate (fenGroups pieces).length 8 :=
    List.eq_replicate_of_mem (by
      intro b hb
      rcases List.mem_map.mp hb with ⟨g, hg, rfl⟩
      exact fenGroups_mem_length hlen hg)
  refine ⟨?_, fenGroups_length pieces, ?_, ?_, ?_⟩
  · rw [getRandomFEN, slashJoin_length, hmap, fenGroups_length]
    simp
  · exact fun g hg => ⟨fenGroups_mem_length hlen hg,
      fun c hc => hmem c (fenGroups_mem_mem hg hc)⟩
  · rw [getRandomFEN, slashJoin_count _ hslash, fenGroups_length]
  · intro c hc
    rcases slashJoin_mem hc with ⟨g, hg, hcg⟩ | hs
    · exact Or.inl (hmem c (fenGroups_mem_mem hg hcg))
    · exact Or.inr hs

/-- Witness for C9: the concrete draw of 64 copies of `'K'`. -/
theorem c9_witness :
    (getRandomFEN (List.replicate 64 'K')).length = 71 ∧
      (fenGroups (List.replicate 64 'K')).length = 8 ∧
      (∀ g ∈ fenGroups (List.replicate 64 'K'), g.length = 8 ∧ ∀ c ∈ g, c ∈ fenChars) ∧
      (getRandomFEN (List.replicate 64 'K')).count '/' = 7 ∧
      ∀ c ∈ getRandomFEN (List.replicate 64 'K'), c ∈ fenChars ∨ c = '/' :=
  c9_fen_shape _ (by decide) (by decide)

/-! ### The y-axis boundary-test defect (getChessTiles) -/

set_option maxRecDepth 100000 in
/-- Claim C4, failing-input evaluation: on a 23-row, 10-column image with
strictly increasing 7-element line sets giving `stepy = 3 > stepx = 1`, the
bottom boundary line `21 + 3 = 24` overflows the image, but the code's
boundary test uses `stepx` (`21 + 1 > 22` is false) so no bottom padding is
applied; the last-row cell slices are then 2 rows tall instead of 3, the
numpy assignment into the `(3, 1)` slot cannot broadcast, and the function
raises instead of returning 64 equally-shaped tiles (`none` here). -/
theorem c4_failing_input_eval :
    getChessTiles aBug lxBug lyBug = none ∧
      List.Pairwise (· < ·) lxBug ∧ List.Pairwise (· < ·) lyBug ∧
      lxBug.length = 7 ∧ lyBug.length = 7 ∧
      nrows aBug = 23 ∧ ncols aBug = 10 :=
  ⟨by with_unfolding_all rfl, by decide, by decide, by decide, by decide,
    by decide, by decide⟩

set_option maxRecDepth 100000 in
/-- Claim C6, failing-input evaluation: with `stepy = 3`, `stepx = 1` and a
23-row image, the y-axis lower boundary `21 + stepy = 24` exceeds
`H - 1 = 22`, so by the claim the image should be bottom-padded by the
overflow `24 - 23 = 1`; but the code's test compares `21 + stepx = 22`
against 22, which fails, so the computed bottom pad is 0 and the y-axis
overhang is left unpadded. -/
theorem c6_failing_input_eval :
    (padsOf 23 10 lxBug lyBug).pry = 0 ∧
      stepOf lyBug = 3 ∧ stepOf lxBug = 1 ∧
      lyBug.getLastD 0 + stepOf lyBug = 24 ∧ ((23 : ℤ) - 1 < 24) ∧
      lyBug.getLastD 0 + stepOf lxBug = 22 ∧ ¬((23 : ℤ) - 1 < 22) :=
  ⟨by with_unfolding_all rfl, by with_unfolding_all rfl, by with_unfolding_all rfl,
    by with_unfolding_all rfl, by decide, by with_unfolding_all rfl, by decide⟩

/-! ### uint8 conversion -/

theorem ratTrunc_eq (q : ℚ) : ratTrunc q = if 0 ≤ q then ⌊q⌋ else ⌈q⌉ := by
  by_cases hq : 0 ≤ q
  · rw [if_pos hq, ratTrunc, Rat.floor_def]
    exact Int.tdiv_eq_ediv (Rat.num_nonneg.mpr hq) (Int.natCast_nonneg _)
  · rw [if_neg hq, ratTrunc]
    have hq' : (0 : ℚ) ≤ -q := by linarith [lt_of_not_le hq]
    have hnum : q.num.tdiv (q.den : ℤ) = -((-q).num.tdiv ((-q).den : ℤ)) := by
      rw [Rat.neg_num, Rat.neg_den, Int.neg_tdiv, neg_neg]
    rw [hnum, Int.tdiv_eq_ediv (Rat.num_nonneg.mpr hq') (Int.natCast_nonneg _),
      ← Rat.floor_def]
    have hceil : ⌈q⌉ = -⌊-q⌋ := by
      have := Int.ceil_neg (α := ℚ) (a := -q)
      rwa [neg_neg] at this
    rw [hceil]

theorem u8cast_lt (q : ℚ) : u8cast q < 256 := by
  have h := Int.emod_lt_of_pos (ratTrunc q) (show (0 : ℤ) < 256 by norm_num)
  have h0 := Int.emod_nonneg (ratTrunc q) (show (256 : ℤ) ≠ 0 by norm_num)
  rw [u8cast]
  omega

theorem u8cast_coe (q : ℚ) : (u8cast q : ℤ) = ratTrunc q % 256 := by
  rw [u8cast, Int.toNat_of_nonneg (Int.emod_nonneg _ (by norm_num))]

theorem u8cast_of_range {q : ℚ} (h0 : 0 ≤ q) (h255 : q ≤ 255) :
    (u8cast q : ℤ) = ratTrunc q := by
  rw [u8cast_coe]
  have h1 : 0 ≤ ratTrunc q := by
    rw [ratTrunc_eq, if_pos h0]
    exact Int.floor_nonneg.mpr h0
  have h2 : ratTrunc q < 256 := by
    rw [ratTrunc_eq, if_pos h0]
    exact Int.floor_lt.mpr (by push_cast; linarith)
  exact Int.emod_eq_of_lt h1 h2

/-! ### Stack slot bookkeeping -/

theorem setCells_length (f : ℕ → ℕ → Option TileN) :
    ∀ (ps : List (ℕ × ℕ)) (s s' : List TileN),
      setCells f ps s = some s' → s'.length = s.length := by
  intro ps
  induction ps with
  | nil =>
    intro s s' h
    simp only [setCells, Option.some.injEq] at h
    rw [← h]
  | cons p rest ih =>
    intro s s' h
    rw [setCells] at h
    rcases Option.bind_eq_some.mp h with ⟨t, _, hrec⟩
    have := ih _ _ hrec
    rwa [List.length_set] at this

theorem setCells_getD_untouched (f : ℕ → ℕ → Option TileN) :
    ∀ (ps : List (ℕ × ℕ)) (s s' : List TileN) (n : ℕ),
      setCells f ps s = some s' → (∀ p ∈ ps, slotOf p.1 p.2 ≠ n) →
      s'.getD n [] = s.getD n [] := by
  intro ps
  induction ps with
  | nil =>
    intro s s' n h _
    simp only [setCells, Option.some.injEq] at h
    rw [← h]
  | cons p rest ih =>
    intro s s' n h hne
    rw [setCells] at h
    rcases Option.bind_eq_some.mp h with ⟨t, _, hrec⟩
    rw [ih _ _ _ hrec (fun q hq => hne q (List.mem_cons_of_mem p hq)),
      List.getD_eq_getElem?_getD, List.getD_eq_getElem?_getD,
      List.getElem?_set_ne (hne p (List.mem_cons_self p rest))]

theorem setCells_getD_written (f : ℕ → ℕ → Option TileN) :
    ∀ (ps : List (ℕ × ℕ)) (s s' : List TileN),
      setCells f ps s = some s' →
      List.Pairwise (fun p q => slotOf p.1 p.2 ≠ slotOf q.1 q.2) ps →
      ∀ p ∈ ps, slotOf p.1 p.2 < s.length →
        ∃ t, f p.1 p.2 = some t ∧ s'.getD (slotOf p.1 p.2) [] = t := by
  intro ps
  induction ps with
  | nil =>
    intro s s' _ _ p hp
    exact absurd hp (List.not_mem_nil p)
  | cons p0 rest ih =>
    intro s s' h hpw p hp hlt
    rw [setCells] at h
    rcases Option.bind_eq_some.mp h with ⟨t, hft, hrec⟩
    rcases List.mem_cons.mp hp with rfl | hp
    · have hne : ∀ q ∈ rest, slotOf q.1 q.2 ≠ slotOf p.1 p.2 :=
        fun q hq => ((List.pairwise_cons.mp hpw).1 q hq).symm
      refine ⟨t, hft, ?_⟩
      rw [setCells_getD_untouched f rest _ _ _ hrec hne,
        List.getD_eq_getElem?_getD, List.getElem?_set_self hlt, Option.getD_some]
    · exact ih _ _ hrec (List.pairwise_cons.mp hpw).2 p hp (by rwa [List.length_set])

set_option maxRecDepth 10000 in
theorem cellOrder_pairwise :
    List.Pairwise (fun p q => slotOf p.1 p.2 ≠ slotOf q.1 q.2) cellOrder := by decide

theorem mem_cellOrder {i j : ℕ} (hi : i < 8) (hj : j < 8) : (i, j) ∈ cellOrder := by
  rw [cellOrder, List.mem_flatMap]
  exact ⟨i, List.mem_range.mpr hi, List.mem_map.mpr ⟨j, List.mem_range.mpr hj, rfl⟩⟩

theorem getChessTiles_eq_setCells {a : MatQ} {lx ly : List ℤ} {s : List TileN}
    (h : getChessTiles a lx ly = some s) :
    setCells (cellAssigned a lx ly) cellOrder
      (List.replicate 64 (zeroTile (stepOf ly).toNat (stepOf lx).toNat)) = some s := by
  rw [getChessTiles] at h
  split at h
  · exact Option.noConfusion h
  · exact h

theorem getChessTiles_length {a : MatQ} {lx ly : List ℤ} {s : List TileN}
    (h : getChessTiles a lx ly = some s) : s.length = 64 := by
  have := setCells_length _ _ _ _ (getChessTiles_eq_setCells h)
  rwa [List.length_replicate] at this

theorem stack_slot_written (a : MatQ) (lx ly : List ℤ) (s : List TileN)
    (hs : getChessTiles a lx ly = some s) (r c : ℕ) (hr : r < 8) (hc : c < 8) :
    ∃ t, cellAssigned a lx ly c r = some t ∧ s.getD ((7 - r) * 8 + c) [] = t := by
  have h := getChessTiles_eq_setCells hs
  have hw := setCells_getD_written (cellAssigned a lx ly) cellOrder _ _ h
    cellOrder_pairwise (c, r) (mem_cellOrder hc hr)
    (by simp only [List.length_replicate]; show (7 - r) * 8 + c < 64; omega)
  exact hw

/-- Claim C5, amended: whenever `getChessTiles` succeeds, the tile of the
grid cell with 0-based top-left-origin coordinates `(rowIndex, colIndex)` is
stored at stack index `(7 - rowIndex) * 8 + colIndex`; consequently index 0
holds the bottom-left visual cell (a1 of a white-aligned board) and index 63
the top-right cell (h8) — not a8 and h1 as the claim stated. -/
theorem c5_slot_formula (a : MatQ) (lx ly : List ℤ) (s : List TileN)
    (hs : getChessTiles a lx ly = some s) (r c : ℕ) (hr : r < 8) (hc : c < 8) :
    ∃ t, cellAssigned a lx ly c r = some t ∧ s.getD ((7 - r) * 8 + c) [] = t :=
  stack_slot_written a lx ly s hs r c hr hc

set_option maxRecDepth 100000 in
/-- Claim C5, counterexample: on the 9-by-9 image `a9` whose pixel `(r, c)`
holds `9 r + c`, tile 0 of the returned stack is `[[63]]` — the bottom-left
visual cell, pixel `(7, 0)` — while the top-left visual cell `[[0]]` sits at
index 56; so index 0 does not hold the top-left cell (a8) as claimed. -/
theorem c5_counterexample :
    (getChessTiles a9 L9 L9).map (fun s => (s.getD 0 [], s.getD 56 [])) =
      some ([[63]], [[0]]) ∧ ([[63]] : TileN) ≠ [[0]] :=
  ⟨by with_unfolding_all rfl, by decide⟩

set_option maxRecDepth 100000 in
/-- Witness for C5: on the concrete image `a9` the hypotheses of the slot
formula hold and the formula produces the stored tile of cell
`(rowIndex, colIndex) = (1, 2)`. -/
theorem c5_witness :
    ∃ s t, getChessTiles a9 L9 L9 = some s ∧ cellAssigned a9 L9 L9 2 1 = some t ∧
      s.getD ((7 - 1) * 8 + 2) [] = t := by
  have hs : (getChessTiles a9 L9 L9).isSome = true := by with_unfolding_all rfl
  obtain ⟨s, hs'⟩ := Option.isSome_iff_exists.mp hs
  obtain ⟨t, ht, hgd⟩ := c5_slot_formula a9 L9 L9 s hs' 1 2 (by omega) (by omega)
  exact ⟨s, t, hs', ht, hgd⟩

/-! ### Provenance of stored pixels -/

theorem mem_foldr_rows {v : ℕ} : ∀ {t : TileN}, v ∈ t.foldr (· ++ ·) [] →
    ∃ row ∈ t, v ∈ row := by
  intro t
  induction t with
  | nil =>
    intro h
    exact absurd h (List.not_mem_nil v)
  | cons r rest ih =>
    intro h
    rcases List.mem_append.mp h with h | h
    · exact ⟨r, List.mem_cons_self r rest, h⟩
    · rcases ih h with ⟨row, hrow, hv⟩
      exact ⟨row, List.mem_cons_of_mem r hrow, hv⟩

theorem mem_storedFold {v : ℕ} : ∀ {s : List TileN},
    v ∈ s.foldr (fun t acc => t.foldr (· ++ ·) [] ++ acc) [] →
    ∃ t ∈ s, ∃ row ∈ t, v ∈ row := by
  intro s
  induction s with
  | nil =>
    intro h
    exact absurd h (List.not_mem_nil v)
  | cons t rest ih =>
    intro h
    rcases List.mem_append.mp h with h | h
    · rcases mem_foldr_rows h with ⟨row, hrow, hv⟩
      exact ⟨t, List.mem_cons_self t rest, row, hrow, hv⟩
    · rcases ih h with ⟨t', ht', row, hrow, hv⟩
      exact ⟨t', List.mem_cons_of_mem t ht', row, hrow, hv⟩

theorem mem_storedEntries {v : ℕ} {o : Option (List TileN)} (hv : v ∈ storedEntries o) :
    ∃ s, o = some s ∧ ∃ t ∈ s, ∃ row ∈ t, v ∈ row := by
  cases o with
  | none => exact absurd hv (List.not_mem_nil v)
  | some s => exact ⟨s, rfl, mem_storedFold hv⟩

theorem mem_headD_elim {α : Type _} {x : α} {l : List (List α)} (h : x ∈ l.headD []) :
    ∃ r ∈ l, x ∈ r := by
  cases l with
  | nil => exact absurd h (List.not_mem_nil x)
  | cons r rest => exact ⟨r, List.mem_cons_self r rest, h⟩

theorem getLastD_mem {α : Type _} : ∀ {l : List α}, l ≠ [] → ∀ d, l.getLastD d ∈ l := by
  intro l
  induction l with
  | nil => intro h; exact absurd rfl h
  | cons a rest ih =>
    intro _ d
    cases rest with
    | nil => exact List.mem_singleton.mpr (by rw [List.getLastD_cons]; rfl)
    | cons b t =>
      rw [List.getLastD_cons]
      exact List.mem_cons_of_mem a (ih (List.cons_ne_nil b t) a)

theorem mem_getLastD_elim {α : Type _} {x : α} {l : List (List α)} (h : x ∈ l.getLastD []) :
    ∃ r ∈ l, x ∈ r := by
  cases l with
  | nil => exact absurd h (List.not_mem_nil x)
  | cons r rest =>
    exact ⟨(r :: rest).getLastD [], getLastD_mem (List.cons_ne_nil r rest) [], h⟩

theorem padRow_mem {pl pr : ℕ} {r : List ℚ} {q : ℚ} (hcond : r = [] → pl + pr = 0)
    (hq : q ∈ List.replicate pl (r.headD 0) ++ r ++ List.replicate pr (r.getLastD 0)) :
    q ∈ r := by
  rcases List.mem_append.mp hq with hq' | hqr
  · rcases List.mem_append.mp hq' with hql | hqm
    · have hqe := List.eq_of_mem_replicate hql
      cases r with
      | nil =>
        have hpl : pl = 0 := by have := hcond rfl; omega
        rw [hpl] at hql
        exact absurd hql (List.not_mem_nil q)
      | cons a t =>
        rw [List.headD_cons] at hqe
        rw [hqe]
        exact List.mem_cons_self a t
    · exact hqm
  · have hqe := List.eq_of_mem_replicate hqr
    cases r with
    | nil =>
      have hpr : pr = 0 := by have := hcond rfl; omega
      rw [hpr] at hqr
      exact absurd hqr (List.not_mem_nil q)
    | cons a t =>
      rw [hqe]
      exact getLastD_mem (List.cons_ne_nil a t) 0

theorem padEdgeO_mem {pt pb pl pr : ℕ} {m m2 : MatQ}
    (h : padEdgeO pt pb pl pr m = some m2) {q : ℚ} (hq : inMat q m2) : inMat q m := by
  rw [padEdgeO] at h
  split at h
  · exact Option.noConfusion h
  · next hg2 =>
    split at h
    · exact Option.noConfusion h
    · next hg3 =>
      rw [Option.some.injEq] at h
      subst h
      have hcond : ∀ r ∈ m, r = [] → pl + pr = 0 := by
        intro r hr hre
        by_contra hne
        exact hg3 (by
          simp only [Bool.and_eq_true, List.any_eq_true, decide_eq_true_iff]
          exact ⟨⟨r, hr, by rw [hre]; rfl⟩, by omega⟩)
      obtain ⟨row, hrow, hqrow⟩ := hq
      have hrow_in : ∃ r ∈ m, q ∈ List.replicate pl (r.headD 0) ++ r ++
          List.replicate pr (r.getLastD 0) := by
        rcases List.mem_append.mp hrow with hrow' | hbot
        · rcases List.mem_append.mp hrow' with htop | hmid
          · have := List.eq_of_mem_replicate htop
            rw [this] at hqrow
            rcases mem_headD_elim hqrow with ⟨prow, hprow, hqp⟩
            rcases List.mem_map.mp hprow with ⟨r, hr, rfl⟩
            exact ⟨r, hr, hqp⟩
          · rcases List.mem_map.mp hmid with ⟨r, hr, rfl⟩
            exact ⟨r, hr, hqrow⟩
        · have := List.eq_of_mem_replicate hbot
          rw [this] at hqrow
          rcases mem_getLastD_elim hqrow with ⟨prow, hprow, hqp⟩
          rcases List.mem_map.mp hprow with ⟨r, hr, rfl⟩
          exact ⟨r, hr, hqp⟩
      rcases hrow_in with ⟨r, hr, hqr⟩
      exact ⟨r, hr, padRow_mem (hcond r hr) hqr⟩

theorem broadcastRow_mem {c : ℕ} {r r2 : List ℚ} (h : broadcastRow c r = some r2)
    {q : ℚ} (hq : q ∈ r2) : q ∈ r := by
  rw [broadcastRow] at h
  split at h
  · rw [Option.some.injEq] at h
    rwa [h]
  · split at h
    · next hlen1 =>
      rw [Option.some.injEq] at h
      rw [← h] at hq
      have hqe := List.eq_of_mem_replicate hq
      cases r with
      | nil => exact absurd hlen1 (by simp)
      | cons a t =>
        rw [List.headD_cons] at hqe
        rw [hqe]
        exact List.mem_cons_self a t
    · exact Option.noConfusion h

theorem broadcastRows_mem {c : ℕ} : ∀ {m m2 : List (List ℚ)},
    broadcastRows c m = some m2 → ∀ {r2 : List ℚ}, r2 ∈ m2 →
    ∃ r ∈ m, broadcastRow c r = some r2 := by
  intro m
  induction m with
  | nil =>
    intro m2 h r2 hr2
    rw [broadcastRows, Option.some.injEq] at h
    rw [← h] at hr2
    exact absurd hr2 (List.not_mem_nil r2)
  | cons r rest ih =>
    intro m2 h r2 hr2
    rw [broadcastRows] at h
    rcases Option.bind_eq_some.mp h with ⟨rb, hrb, hmap⟩
    rcases Option.map_eq_some'.mp hmap with ⟨ms, hms, rfl⟩
    rcases List.mem_cons.mp hr2 with rfl | hr2'
    · exact ⟨r, List.mem_cons_self r rest, hrb⟩
    · rcases ih hms hr2' with ⟨r', hr', hbr⟩
      exact ⟨r', List.mem_cons_of_mem r hr', hbr⟩

theorem broadcastTo_mem {rr cc : ℕ} {m m2 : MatQ} (h : broadcastTo rr cc m = some m2)
    {q : ℚ} (hq : inMat q m2) : inMat q m := by
  rw [broadcastTo] at h
  rcases Option.bind_eq_some.mp h with ⟨m1, hm1, hrows⟩
  obtain ⟨row2, hrow2, hqrow⟩ := hq
  obtain ⟨row1, hrow1, hbr⟩ := broadcastRows_mem hrows hrow2
  have hqrow1 : q ∈ row1 := broadcastRow_mem hbr hqrow
  split at hm1
  · rw [Option.some.injEq] at hm1
    rw [← hm1] at hrow1
    exact ⟨row1, hrow1, hqrow1⟩
  · split at hm1
    · rw [Option.some.injEq] at hm1
      rw [← hm1] at hrow1
      have := List.eq_of_mem_replicate hrow1
      rw [this] at hqrow1
      exact mem_headD_elim hqrow1
    · exact Option.noConfusion hm1

theorem pySlice_sublist {α : Type _} (l : List α) (i j : ℤ) : (pySlice l i j).Sublist l :=
  (List.drop_sublist _ _).trans (List.take_sublist _ _)

theorem sliceM_mem {m : MatQ} {r1 r2 c1 c2 : ℤ} {q : ℚ}
    (hq : inMat q (sliceM m r1 r2 c1 c2)) : inMat q m := by
  obtain ⟨row2, hrow2, hqrow⟩ := hq
  rw [sliceM] at hrow2
  rcases List.mem_map.mp hrow2 with ⟨row, hrow, rfl⟩
  exact ⟨row, (pySlice_sublist m r1 r2).mem hrow, (pySlice_sublist row c1 c2).mem hqrow⟩

theorem castTile_mem {m : MatQ} {row : List ℕ} (hrow : row ∈ castTile m) {v : ℕ}
    (hv : v ∈ row) : ∃ q, inMat q m ∧ v = u8cast q := by
  rw [castTile] at hrow
  rcases List.mem_map.mp hrow with ⟨r, hr, rfl⟩
  rcases List.mem_map.mp hv with ⟨q, hq, rfl⟩
  exact ⟨q, ⟨r, hr, hq⟩, rfl⟩

theorem a2cOf_mem {a : MatQ} {lx ly : List ℤ} {a2c : MatQ} (h : a2cOf a lx ly = some a2c)
    {q : ℚ} (hq : inMat q a2c) : inMat q a := by
  rw [a2cOf] at h
  rcases Option.map_eq_some'.mp h with ⟨a2, ha2, rfl⟩
  exact padEdgeO_mem ha2 (sliceM_mem hq)

theorem cellAssigned_mem {a : MatQ} {lx ly : List ℤ} {i j : ℕ} {t : TileN}
    (h : cellAssigned a lx ly i j = some t) {row : List ℕ} (hrow : row ∈ t) {v : ℕ}
    (hv : v ∈ row) : ∃ q, inMat q a ∧ v = u8cast q := by
  rw [cellAssigned] at h
  rcases Option.bind_eq_some.mp h with ⟨a2c, ha2c, h2⟩
  rcases Option.bind_eq_some.mp h2 with ⟨padded, hpad, h3⟩
  rcases Option.map_eq_some'.mp h3 with ⟨mb, hmb, rfl⟩
  rcases castTile_mem hrow hv with ⟨q, hqmb, rfl⟩
  exact ⟨q, a2cOf_mem ha2c (sliceM_mem (padEdgeO_mem hpad (broadcastTo_mem hmb hqmb))),
    rfl⟩

/-- Claim C10 (confirmed): every pixel value stored in a returned tile
stack is a `uint8`: it is less than 256 and equals the truncation toward
zero of some (possibly edge-replicated) source intensity, reduced modulo
2^8; for source intensities in `[0, 255]` the stored pixel equals the plain
truncation. -/
theorem c10_stored_pixels (a : MatQ) (lx ly : List ℤ) (v : ℕ)
    (hv : v ∈ storedEntries (getChessTiles a lx ly)) :
    v < 256 ∧ ∃ q, inMat q a ∧ (v : ℤ) = ratTrunc q % 256 ∧
      ratTrunc q = (if 0 ≤ q then ⌊q⌋ else ⌈q⌉) ∧
      (0 ≤ q → q ≤ 255 → (v : ℤ) = ratTrunc q) := by
  rcases mem_storedEntries hv with ⟨s, hs, t, ht, row, hrow, hvrow⟩
  have hlen : s.length = 64 := getChessTiles_length hs
  rcases List.mem_iff_getElem.mp ht with ⟨k, hk, hget⟩
  have hk64 : k < 64 := by omega
  have hslot : (7 - (7 - k / 8)) * 8 + k % 8 = k := by omega
  obtain ⟨t', ht', hgd⟩ := stack_slot_written a lx ly s hs (7 - k / 8) (k % 8)
    (by omega) (by omega)
  have htt' : t = t' := by
    rw [← hgd, hslot, List.getD_eq_getElem?_getD, List.getElem?_eq_getElem hk,
      Option.getD_some, hget]
  rcases cellAssigned_mem ht' (htt' ▸ hrow) hvrow with ⟨q, hqa, rfl⟩
  exact ⟨u8cast_lt q, q, hqa, u8cast_coe q, ratTrunc_eq q,
    fun h0 h255 => u8cast_of_range h0 h255⟩

set_option maxRecDepth 100000 in
/-- Witness for C10: the pixel value 63 is stored in the concrete stack of
`a9` (it is the bottom-left source intensity), and the provenance facts hold
for it. -/
theorem c10_witness :
    (63 : ℕ) < 256 ∧ ∃ q, inMat q a9 ∧ ((63 : ℕ) : ℤ) = ratTrunc q % 256 ∧
      ratTrunc q = (if 0 ≤ q then ⌊q⌋ else ⌈q⌉) ∧
      (0 ≤ q → q ≤ 255 → ((63 : ℕ) : ℤ) = ratTrunc q) :=
  c10_stored_pixels a9 L9 L9 63 (of_decide_eq_true (by with_unfolding_all rfl))

end ChessCV
